import Mathlib

/-!
Shallow embedding of the `engram` cognitive memory engine (Go) and proofs
about its scoring, storage, classification, reflection and search operations.

Modelling conventions, applied uniformly:
* Go `float64` / `float32` values are modelled as real numbers (`ℝ`); the
  classifier's keyword scores, which are exact multiples of 0.3 far below any
  rounding boundary, are modelled as rationals (`ℚ`) so they stay decidable.
* Timestamps (`time.Time`) are modelled as real-valued seconds; Go's
  `time.Since(t).Hours()/24` becomes `((now - t) / 3600) / 24`.
* A Go map is modelled as a function with the zero value for absent keys
  (`Sector → Option ℝ` plus `Option.getD 0` where the code distinguishes
  presence), and iteration over a Go map — whose order the Go specification
  leaves unspecified — is modelled by quantifying over the iteration order.
* SQLite tables are modelled as lists of rows; SQL `UPDATE`/`DELETE ... WHERE`
  become maps/filters over those lists.
-/

namespace Engram

/-- The five cognitive sectors (`types.go`). In Go `Sector` is a string type;
the engine only produces these five constants. -/
inductive Sector where
  | episodic
  | semantic
  | procedural
  | emotional
  | reflective
deriving DecidableEq, Repr

/-- `ScoringWeights` (`types.go`): coefficients of the composite score. -/
structure ScoringWeights where
  similarity : ℝ
  salience : ℝ
  recency : ℝ
  linkWeight : ℝ

/-- `DefaultScoringWeights` (`types.go`): the standard composite weights
(0.6, 0.2, 0.1, 0.1). -/
def DefaultScoringWeights : ScoringWeights :=
  { similarity := 0.6, salience := 0.2, recency := 0.1, linkWeight := 0.1 }

/-- `CompositeScore` (`scoring.go`): blended relevance score with
configurable weights,
`(w.sim·similarity + w.sal·salience + w.rec·recency + w.link·linkWeight) · sectorWeight`
where `recency = exp(-0.02 · daysSinceAccess)`. -/
noncomputable def CompositeScore (similarity salience daysSinceAccess linkWeight sectorWeight : ℝ)
    (w : ScoringWeights) : ℝ :=
  let recency := Real.exp (-0.02 * daysSinceAccess)
  let raw := w.similarity * similarity + w.salience * salience + w.recency * recency +
    w.linkWeight * linkWeight
  raw * sectorWeight

/-- `CosineSimilarity` (`scoring.go`): cosine similarity of two vectors;
0 on length mismatch, empty input, or zero norm on either side. -/
noncomputable def CosineSimilarity (a b : List ℝ) : ℝ :=
  if a.length ≠ b.length ∨ a.length = 0 then 0
  else
    let dot := ((a.zip b).map fun p => p.1 * p.2).sum
    let normA := (a.map fun x => x * x).sum
    let normB := (b.map fun x => x * x).sum
    if normA = 0 ∨ normB = 0 then 0
    else dot / (Real.sqrt normA * Real.sqrt normB)

/-- `DecayFactor` (`scoring.go`): `exp(-λ · days / (salience + 0.1))`. -/
noncomputable def DecayFactor (lambda daysSinceAccess salience : ℝ) : ℝ :=
  Real.exp (-lambda * daysSinceAccess / (salience + 0.1))

/-- `DaysSince` (`scoring.go`): fractional days between a past timestamp and
now (`time.Since(t).Hours() / 24.0`), with time in seconds. -/
noncomputable def DaysSince (now t : ℝ) : ℝ :=
  ((now - t) / 3600) / 24

/-- C1: `CompositeScore(similarity, salience, days, link_weight, sector_weight, W)`
equals `(W.sim·similarity + W.sal·salience + W.rec·exp(-0.02·days) + W.link·link_weight) · sector_weight`
for all real inputs, with no clamping; and with the default weights
(0.6, 0.2, 0.1, 0.1), `composite(sim=1, sal=1, days=0, link=1, sec=1)` equals
1.0 within 1e-6. -/
theorem compositeScore_formula_and_default_value :
    (∀ (similarity salience days linkWeight sectorWeight : ℝ) (w : ScoringWeights),
        CompositeScore similarity salience days linkWeight sectorWeight w =
          (w.similarity * similarity + w.salience * salience +
            w.recency * Real.exp (-0.02 * days) + w.linkWeight * linkWeight) * sectorWeight) ∧
      |CompositeScore 1 1 0 1 1 DefaultScoringWeights - 1| < 1e-6 := by
  refine ⟨fun similarity salience days linkWeight sectorWeight w => rfl, ?_⟩
  have h0 : (-0.02 : ℝ) * 0 = 0 := by norm_num
  simp only [CompositeScore, DefaultScoringWeights, h0, Real.exp_zero]
  norm_num

/-- `Memory` (`types.go`): the core memory record stored in SQLite. -/
structure Memory where
  id : Int
  content : String
  sector : Sector
  salience : ℝ
  decayScore : ℝ
  lastAccessedAt : ℝ
  accessCount : Int
  createdAt : ℝ
  userId : String
  summary : String
  sessionId : String
  parentId : Int

/-- A row of the `vectors` table (store): embedding owned by a memory. -/
structure VectorRow where
  memoryId : Int
  sector : Sector
  vec : List ℝ

/-- A row of the `associations` table (store): weighted memory→waypoint edge. -/
structure Assoc where
  memoryId : Int
  waypointId : Int
  weight : ℝ

/-- A row of the `waypoints` table (store): an entity node. -/
structure Waypoint where
  id : Int
  entityText : String
  entityType : String

/-- The SQLite database contents relevant to the claims. -/
structure StoreState where
  memories : List Memory
  vectors : List VectorRow
  associations : List Assoc
  waypoints : List Waypoint

/-- Row-level effect of the SQL `SET` clause in `Store.ReinforceSalience`:
`salience = MIN(salience + boost, 1.0)`, `decay_score = MIN(decay_score + boost, 1.0)`,
`last_accessed_at = datetime('now')`, `access_count = access_count + 1`. -/
noncomputable def reinforceRow (boost now : ℝ) (m : Memory) : Memory :=
  { m with
    salience := min (m.salience + boost) 1
    decayScore := min (m.decayScore + boost) 1
    lastAccessedAt := now
    accessCount := m.accessCount + 1 }

/-- `Store.ReinforceSalience`: `UPDATE memories SET ... WHERE id = memoryID`. -/
noncomputable def ReinforceSalience (mems : List Memory) (memoryId : Int) (boost now : ℝ) :
    List Memory :=
  mems.map fun m => if m.id = memoryId then reinforceRow boost now m else m

/-- C4: `reinforce_salience(m, boost)` sets `salience' = min(salience+boost, 1)`,
`decay_score' = min(decay_score+boost, 1)`, `last_accessed_at' = now`,
`access_count' = access_count + 1`, the store-level update applies exactly this
row transformation to the row with the given id, and in particular neither
salience nor decay_score exceeds 1.0 after reinforcement. -/
theorem reinforceSalience_post_state (m : Memory) (boost now : ℝ)
    (mems : List Memory) (memoryId : Int) :
    (reinforceRow boost now m).salience = min (m.salience + boost) 1 ∧
      (reinforceRow boost now m).decayScore = min (m.decayScore + boost) 1 ∧
      (reinforceRow boost now m).lastAccessedAt = now ∧
      (reinforceRow boost now m).accessCount = m.accessCount + 1 ∧
      (reinforceRow boost now m).salience ≤ 1 ∧
      (reinforceRow boost now m).decayScore ≤ 1 ∧
      ReinforceSalience mems memoryId boost now =
        mems.map (fun x => if x.id = memoryId then reinforceRow boost now x else x) :=
  ⟨rfl, rfl, rfl, rfl, min_le_right _ _, min_le_right _ _, rfl⟩

/-- `Store.InsertAssociation`: `INSERT INTO associations ... ON
CONFLICT(memory_id, waypoint_id) DO UPDATE SET weight = MAX(weight,
excluded.weight)`, modelled on the association table under its
`UNIQUE(memory_id, waypoint_id)` constraint. -/
noncomputable def InsertAssociation (assocs : List Assoc) (memoryId waypointId : Int)
    (weight : ℝ) : List Assoc :=
  if assocs.any fun a => decide (a.memoryId = memoryId ∧ a.waypointId = waypointId) then
    assocs.map fun a =>
      if a.memoryId = memoryId ∧ a.waypointId = waypointId then
        { a with weight := max a.weight weight }
      else a
  else
    assocs ++ [{ memoryId := memoryId, waypointId := waypointId, weight := weight }]

/-- C9: starting from a table with no `(m, w)` association, inserting
`(m, w, a)` and then `(m, w, b)` leaves exactly one row for `(m, w)`, and its
weight is `max(a, b)`. -/
theorem insertAssociation_twice_single_row_max (assocs : List Assoc) (m w : Int) (a b : ℝ)
    (h : ∀ r ∈ assocs, ¬(r.memoryId = m ∧ r.waypointId = w)) :
    (InsertAssociation (InsertAssociation assocs m w a) m w b).filter
        (fun r => decide (r.memoryId = m ∧ r.waypointId = w)) =
      [{ memoryId := m, waypointId := w, weight := max a b }] := by
  have hone : InsertAssociation assocs m w a =
      assocs ++ [({ memoryId := m, waypointId := w, weight := a } : Assoc)] := by
    have hany1 : (assocs.any fun r => decide (r.memoryId = m ∧ r.waypointId = w)) = false := by
      rw [List.any_eq_false]
      intro r hr
      simpa using h r hr
    unfold InsertAssociation
    rw [hany1]
    simp
  have hany2 : ((assocs ++ [({ memoryId := m, waypointId := w, weight := a } : Assoc)]).any
      fun r => decide (r.memoryId = m ∧ r.waypointId = w)) = true := by
    rw [List.any_eq_true]
    refine ⟨({ memoryId := m, waypointId := w, weight := a } : Assoc), by simp, by simp⟩
  rw [hone]
  unfold InsertAssociation
  rw [hany2]
  simp only [if_true]
  rw [List.map_append, List.filter_append]
  have hmap : (assocs.map fun r =>
      if r.memoryId = m ∧ r.waypointId = w then { r with weight := max r.weight b } else r) =
      assocs := by
    conv_rhs => rw [← List.map_id assocs]
    apply List.map_congr_left
    intro r hr
    rw [if_neg (h r hr)]
    rfl
  have hfilter0 : assocs.filter (fun r => decide (r.memoryId = m ∧ r.waypointId = w)) = [] := by
    rw [List.filter_eq_nil_iff]
    intro r hr
    simpa using h r hr
  rw [hmap, hfilter0]
  simp

/-- λ selection in `Store.RunDecaySweep`: a Go map lookup yields the zero value
for an absent key, and the code then replaces a zero λ by the 0.02 default
(`if lambda == 0 { lambda = 0.02 }`). -/
noncomputable def sweepLambda (decayRates : Sector → Option ℝ) (s : Sector) : ℝ :=
  if (decayRates s).getD 0 = 0 then 0.02 else (decayRates s).getD 0

/-- The `new_score` computed for one row in `Store.RunDecaySweep`:
`salience · exp(-λ · days / (salience + 0.1))` with
`days = now.Sub(last_accessed_at).Hours() / 24.0` (time in seconds). -/
noncomputable def sweepNewScore (now : ℝ) (decayRates : Sector → Option ℝ) (m : Memory) : ℝ :=
  m.salience *
    Real.exp (-(sweepLambda decayRates m.sector) * ((now - m.lastAccessedAt) / 3600 / 24) /
      (m.salience + 0.1))

/-- `Store.RunDecaySweep`: one transaction that scans all memories, stages
per-row updates and deletions, applies the updates by id, deletes the flagged
rows (cascading to vectors and associations), multiplies remaining association
weights by 0.995, deletes associations with weight below 0.05, and deletes
orphaned waypoints. Returns the new state and the (updated, deleted) counts. -/
noncomputable def RunDecaySweep (now minScore : ℝ) (decayRates : Sector → Option ℝ)
    (st : StoreState) : StoreState × Nat × Nat :=
  let updates : List (Int × ℝ) := st.memories.filterMap fun m =>
    if sweepNewScore now decayRates m < minScore then none
    else some (m.id, sweepNewScore now decayRates m)
  let toDelete : List Int := st.memories.filterMap fun m =>
    if sweepNewScore now decayRates m < minScore then some m.id else none
  let mems1 := updates.foldl
    (fun ms u => ms.map fun m => if m.id = u.1 then { m with decayScore := u.2 } else m)
    st.memories
  let mems2 := toDelete.foldl (fun ms i => ms.filter fun m => decide (¬ m.id = i)) mems1
  let keptIds := mems2.map Memory.id
  let vecs2 := st.vectors.filter fun v => decide (v.memoryId ∈ keptIds)
  let assoc1 := st.associations.filter fun a => decide (a.memoryId ∈ keptIds)
  let assoc2 := (assoc1.map fun a => { a with weight := a.weight * 0.995 }).filter
    fun a => decide (¬ a.weight < 0.05)
  let wps2 := st.waypoints.filter fun wp => decide (wp.id ∈ assoc2.map Assoc.waypointId)
  (⟨mems2, vecs2, assoc2, wps2⟩, updates.length, toDelete.length)

/-- A left fold of per-element list maps is the map of the folded function. -/
theorem foldl_map_comm {α β : Type} (h : β → α → α) (us : List β) (ms : List α) :
    us.foldl (fun acc u => acc.map (h u)) ms =
      ms.map (fun m => us.foldl (fun x u => h u x) m) := by
  induction us generalizing ms with
  | nil => simp
  | cons u us ih => simp [ih, List.map_map, Function.comp]

/-- A left fold of list filters is the filter by the conjunction of tests. -/
theorem foldl_filter_comm {α γ : Type} (q : γ → α → Bool) (is : List γ) (ms : List α) :
    is.foldl (fun acc i => acc.filter (q i)) ms =
      ms.filter (fun m => is.all (fun i => q i m)) := by
  induction is generalizing ms with
  | nil => simp
  | cons i is ih =>
    rw [List.foldl_cons, ih, List.filter_filter]
    apply List.filter_congr
    intro m _
    rw [List.all_cons, Bool.and_comm]

/-- One staged `UPDATE memories SET decay_score = ? WHERE id = ?` applied to a row. -/
noncomputable def applyUpd (x : Memory) (u : Int × ℝ) : Memory :=
  if x.id = u.1 then { x with decayScore := u.2 } else x

theorem applyUpd_id (x : Memory) (u : Int × ℝ) : (applyUpd x u).id = x.id := by
  unfold applyUpd
  split <;> rfl

theorem foldl_applyUpd_id (us : List (Int × ℝ)) (x : Memory) :
    (us.foldl applyUpd x).id = x.id := by
  induction us generalizing x with
  | nil => rfl
  | cons u us ih => rw [List.foldl_cons, ih, applyUpd_id]

theorem foldl_applyUpd_of_forall_ne (us : List (Int × ℝ)) (x : Memory)
    (h : ∀ u ∈ us, u.1 ≠ x.id) : us.foldl applyUpd x = x := by
  induction us with
  | nil => rfl
  | cons u us ih =>
    rw [List.foldl_cons]
    have hx : applyUpd x u = x := by
      unfold applyUpd
      rw [if_neg]
      intro he
      exact h u (List.mem_cons_self _ _) he.symm
    rw [hx]
    exact ih fun v hv => h v (List.mem_cons_of_mem _ hv)

theorem foldl_applyUpd_unique (us : List (Int × ℝ)) (x : Memory) (s : ℝ)
    (hn : (us.map Prod.fst).Nodup) (hmem : (x.id, s) ∈ us) :
    us.foldl applyUpd x = { x with decayScore := s } := by
  induction us generalizing x with
  | nil => cases hmem
  | cons u us ih =>
    rw [List.foldl_cons]
    have hn' : u.1 ∉ us.map Prod.fst ∧ (us.map Prod.fst).Nodup := by
      simpa [List.nodup_cons] using hn
    by_cases hid : x.id = u.1
    · have hu2 : u.2 = s := by
        rcases List.mem_cons.mp hmem with h1 | h2
        · rw [← h1]
        · exfalso
          apply hn'.1
          rw [← hid]
          exact List.mem_map.mpr ⟨(x.id, s), h2, rfl⟩
      have hstep : applyUpd x u = { x with decayScore := s } := by
        unfold applyUpd
        rw [if_pos hid, hu2]
      rw [hstep]
      apply foldl_applyUpd_of_forall_ne
      intro v hv he
      apply hn'.1
      have hvx : v.1 = x.id := he
      rw [← hvx.trans hid]
      exact List.mem_map.mpr ⟨v, hv, rfl⟩
    · have hstep : applyUpd x u = x := by
        unfold applyUpd
        rw [if_neg hid]
      rw [hstep]
      have h2 : (x.id, s) ∈ us := by
        rcases List.mem_cons.mp hmem with h1 | h2
        · exfalso
          apply hid
          rw [← h1]
        · exact h2
      exact ih x hn'.2 h2

/-- `filterMap` with an `if p then none else some (g a)` body is a
filter-then-map. -/
theorem filterMap_ite_keep {α β : Type} (p : α → Prop) [DecidablePred p] (g : α → β)
    (l : List α) :
    (l.filterMap fun a => if p a then none else some (g a)) =
      (l.filter fun a => decide (¬ p a)).map g := by
  induction l with
  | nil => rfl
  | cons a l ih =>
    by_cases hp : p a
    · simp only [List.filterMap_cons, List.filter_cons, hp, if_pos, decide_not,
        decide_eq_true_eq, ih]
      simp [hp]
    · simp only [List.filterMap_cons, List.filter_cons, hp, if_neg, decide_not,
        decide_eq_true_eq, ih]
      simp [hp]

/-- `filterMap` with an `if p then some (g a) else none` body is a
filter-then-map. -/
theorem filterMap_ite_drop {α β : Type} (p : α → Prop) [DecidablePred p] (g : α → β)
    (l : List α) :
    (l.filterMap fun a => if p a then some (g a) else none) =
      (l.filter fun a => decide (p a)).map g := by
  induction l with
  | nil => rfl
  | cons a l ih =>
    by_cases hp : p a
    · simp only [List.filterMap_cons, List.filter_cons, hp, if_pos, decide_eq_true_eq, ih]
      simp [hp]
    · simp only [List.filterMap_cons, List.filter_cons, hp, if_neg, decide_eq_true_eq, ih]
      simp [hp]

/-- The staged-update-then-staged-delete shape of the sweep, applied to a
memory table with distinct ids, equals a single filter-and-recompute pass. -/
theorem upd_del_pipeline (p : Memory → Prop) [DecidablePred p] (f : Memory → ℝ)
    (mems : List Memory) (hids : (mems.map Memory.id).Nodup) :
    ((mems.filterMap fun m => if p m then some m.id else none).foldl
      (fun ms i => ms.filter fun m => decide (¬ m.id = i))
      ((mems.filterMap fun m => if p m then none else some (m.id, f m)).foldl
        (fun ms u => ms.map fun x => applyUpd x u) mems)) =
      mems.filterMap (fun m => if p m then none else some { m with decayScore := f m }) := by
  have e1 : (mems.filterMap fun m => if p m then none else some (m.id, f m)) =
      (mems.filter fun m => decide (¬ p m)).map (fun m => (m.id, f m)) :=
    filterMap_ite_keep p _ mems
  have e2 : (mems.filterMap fun m => if p m then some m.id else none) =
      (mems.filter fun m => decide (p m)).map Memory.id :=
    filterMap_ite_drop p _ mems
  have e5 : mems.filterMap (fun m => if p m then none else some { m with decayScore := f m }) =
      (mems.filter fun m => decide (¬ p m)).map (fun m => { m with decayScore := f m }) :=
    filterMap_ite_keep p _ mems
  rw [e1, e2, e5]
  have e3 := foldl_map_comm (fun (u : Int × ℝ) (x : Memory) => applyUpd x u)
    ((mems.filter fun m => decide (¬ p m)).map (fun m => (m.id, f m))) mems
  simp only [e3]
  have e4 := foldl_filter_comm (fun (i : Int) (m : Memory) => decide (¬ m.id = i))
    ((mems.filter fun m => decide (p m)).map Memory.id)
    (mems.map fun m =>
      ((mems.filter fun m => decide (¬ p m)).map (fun m => (m.id, f m))).foldl applyUpd m)
  simp only [e4]
  have hNodupUpd :
      ((((mems.filter fun m => decide (¬ p m)).map (fun m => (m.id, f m))).map Prod.fst)).Nodup := by
    rw [List.map_map]
    have hsub : ((mems.filter fun m => decide (¬ p m)).map fun m => (Prod.fst ∘ fun m =>
        ((m.id : Int), f m)) m).Sublist (mems.map fun m => m.id) :=
      (List.filter_sublist mems).map _
    exact hsub.nodup hids
  -- per-row evaluation of the staged updates
  have hrow : ∀ m ∈ mems,
      (((mems.filter fun m => decide (¬ p m)).map (fun m => (m.id, f m))).foldl applyUpd m) =
        if p m then m else { m with decayScore := f m } := by
    intro m hm
    by_cases hp : p m
    · rw [if_pos hp]
      apply foldl_applyUpd_of_forall_ne
      intro u hu
      rcases List.mem_map.mp hu with ⟨m', hm', rfl⟩
      rcases List.mem_filter.mp hm' with ⟨hm'mem, hm'p⟩
      intro hidEq
      have : m' = m := List.inj_on_of_nodup_map hids hm'mem hm hidEq
      rw [this] at hm'p
      simp [hp] at hm'p
    · rw [if_neg hp]
      apply foldl_applyUpd_unique _ _ _ hNodupUpd
      apply List.mem_map.mpr
      exact ⟨m, List.mem_filter.mpr ⟨hm, by simp [hp]⟩, rfl⟩
  rw [List.map_congr_left hrow, List.filter_map]
  have hcond : ∀ m ∈ mems,
      ((fun m' => ((mems.filter fun m => decide (p m)).map Memory.id).all
          (fun i => decide (¬ m'.id = i))) ∘
        (fun m => if p m then m else { m with decayScore := f m })) m =
      decide (¬ p m) := by
    intro m hm
    have hgid : (if p m then m else { m with decayScore := f m }).id = m.id := by
      by_cases hp : p m
      · rw [if_pos hp]
      · rw [if_neg hp]
    apply Bool.coe_iff_coe.mp
    simp only [Function.comp, List.all_eq_true, decide_eq_true_eq, hgid]
    constructor
    · intro hall
      intro hp
      have : m.id ∈ (mems.filter fun m => decide (p m)).map Memory.id :=
        List.mem_map.mpr ⟨m, List.mem_filter.mpr ⟨hm, by simp [hp]⟩, rfl⟩
      exact hall m.id this rfl
    · intro hnp i hi hie
      rcases List.mem_map.mp hi with ⟨m', hm', rfl⟩
      rcases List.mem_filter.mp hm' with ⟨hm'mem, hm'p⟩
      have : m = m' := List.inj_on_of_nodup_map hids hm hm'mem hie
      rw [← this] at hm'p
      simp at hm'p
      exact hnp hm'p
  rw [List.filter_congr hcond]
  apply List.map_congr_left
  intro m hm
  rcases List.mem_filter.mp hm with ⟨_, hmp⟩
  simp only [decide_eq_true_eq] at hmp
  rw [if_neg hmp]

/-- C2 (amended): after `run_decay_sweep(min_score, rates)` commits, the
surviving memory table is exactly the input table with each surviving row's
`decay_score` recomputed as `salience · exp(-λ · days / (salience + 0.1))`,
where `days = (now − last_accessed_at)/86400 s` and λ is `rates[sector]` when
that rate is nonzero and 0.02 otherwise (sector absent from `rates`, or mapped
to 0); no surviving memory has `decay_score < min_score`; and every memory
whose recomputed score is below `min_score` is deleted. The hypothesis is the
primary-key invariant that memory ids are distinct. -/
theorem runDecaySweep_survivors (now minScore : ℝ) (decayRates : Sector → Option ℝ)
    (st : StoreState) (hids : (st.memories.map Memory.id).Nodup) :
    (RunDecaySweep now minScore decayRates st).1.memories =
        st.memories.filterMap (fun m =>
          if sweepNewScore now decayRates m < minScore then none
          else some { m with decayScore := sweepNewScore now decayRates m }) ∧
      (RunDecaySweep now minScore decayRates st).1.memories.Forall
        (fun m => ¬ m.decayScore < minScore) ∧
      st.memories.Forall (fun m => sweepNewScore now decayRates m < minScore →
        ¬ m.id ∈ ((RunDecaySweep now minScore decayRates st).1.memories.map Memory.id)) := by
  have hmain : (RunDecaySweep now minScore decayRates st).1.memories =
      st.memories.filterMap (fun m =>
        if sweepNewScore now decayRates m < minScore then none
        else some { m with decayScore := sweepNewScore now decayRates m }) := by
    have h0 : (RunDecaySweep now minScore decayRates st).1.memories =
        ((st.memories.filterMap fun m =>
            if sweepNewScore now decayRates m < minScore then some m.id else none).foldl
          (fun ms i => ms.filter fun m => decide (¬ m.id = i))
          ((st.memories.filterMap fun m =>
              if sweepNewScore now decayRates m < minScore then none
              else some (m.id, sweepNewScore now decayRates m)).foldl
            (fun ms u => ms.map fun x => applyUpd x u) st.memories)) := rfl
    rw [h0]
    exact upd_del_pipeline (fun m => sweepNewScore now decayRates m < minScore)
      (fun m => sweepNewScore now decayRates m) st.memories hids
  refine ⟨hmain, ?_, ?_⟩
  · rw [hmain, List.forall_iff_forall_mem]
    intro m' hm'
    rcases List.mem_filterMap.mp hm' with ⟨m, _, heq⟩
    by_cases hp : sweepNewScore now decayRates m < minScore
    · rw [if_pos hp] at heq
      cases heq
    · rw [if_neg hp] at heq
      cases heq
      exact hp
  · rw [List.forall_iff_forall_mem]
    intro m hm hp hin
    rw [hmain] at hin
    rcases List.mem_map.mp hin with ⟨m', hm', hid⟩
    rcases List.mem_filterMap.mp hm' with ⟨m'', hm'', heq⟩
    by_cases hp'' : sweepNewScore now decayRates m'' < minScore
    · rw [if_pos hp''] at heq
      cases heq
    · rw [if_neg hp''] at heq
      cases heq
      have he : m'' = m := List.inj_on_of_nodup_map hids hm'' hm hid
      rw [he] at hp''
      exact hp'' hp

/-- The λ-selection rule exactly as the claim states it: `rates[sector]`, with
0.02 only when the sector is absent from `rates`. -/
def specLambda (decayRates : Sector → Option ℝ) (s : Sector) : ℝ :=
  (decayRates s).getD 0.02

/-- A decay-rate table mapping `semantic` explicitly to rate 0. -/
noncomputable def c2rates : Sector → Option ℝ :=
  fun s => if s = Sector.semantic then some 0 else none

/-- A semantic memory with salience 0.9, last accessed at time 0. -/
noncomputable def c2mem : Memory :=
  { id := 1, content := "strong", sector := Sector.semantic, salience := 0.9,
    decayScore := 0.9, lastAccessedAt := 0, accessCount := 0, createdAt := 0,
    userId := "u1", summary := "s", sessionId := "", parentId := 0 }

/-- A store holding just `c2mem`. -/
noncomputable def c2store : StoreState := ⟨[c2mem], [], [], []⟩

/-- C2 counterexample for the claim as stated: with `rates` mapping `semantic`
explicitly to 0, a memory of salience 0.9 last accessed one day before the
sweep survives with `decay_score = 0.9·exp(-0.02·1/(0.9+0.1))` — the code
substitutes the 0.02 default for the zero rate — whereas the claim's
`λ = rates[semantic] = 0` would give 0.9; the two values differ. -/
theorem runDecaySweep_explicit_zero_rate_ce :
    (RunDecaySweep 86400 0.01 c2rates c2store).1.memories.map Memory.decayScore =
        [(0.9 : ℝ) * Real.exp (-(0.02 : ℝ) * (((86400 : ℝ) - 0) / 3600 / 24) / (0.9 + 0.1))] ∧
      specLambda c2rates Sector.semantic = 0 ∧
      (0.9 : ℝ) * Real.exp (-(0.02 : ℝ) * (((86400 : ℝ) - 0) / 3600 / 24) / (0.9 + 0.1)) ≠
        (0.9 : ℝ) * Real.exp (-(specLambda c2rates Sector.semantic) *
          (((86400 : ℝ) - 0) / 3600 / 24) / (0.9 + 0.1)) := by
  have hlam : sweepLambda c2rates Sector.semantic = 0.02 := by
    unfold sweepLambda c2rates
    simp
  have hscore : sweepNewScore 86400 c2rates c2mem =
      (0.9 : ℝ) * Real.exp (-(0.02 : ℝ) * (((86400 : ℝ) - 0) / 3600 / 24) / (0.9 + 0.1)) := by
    unfold sweepNewScore
    rw [show c2mem.sector = Sector.semantic from rfl, hlam,
      show c2mem.salience = (0.9 : ℝ) from rfl,
      show c2mem.lastAccessedAt = (0 : ℝ) from rfl]
  have harg : -(0.02 : ℝ) * (((86400 : ℝ) - 0) / 3600 / 24) / (0.9 + 0.1) = -0.02 := by
    norm_num
  have hexp : (0.98 : ℝ) ≤ Real.exp (-0.02) := by
    have h := Real.add_one_le_exp (-0.02 : ℝ)
    linarith
  have hsurvive : ¬ sweepNewScore 86400 c2rates c2mem < 0.01 := by
    rw [hscore, harg]
    intro hlt
    nlinarith
  have hspec0 : specLambda c2rates Sector.semantic = 0 := by
    unfold specLambda c2rates
    simp
  refine ⟨?_, hspec0, ?_⟩
  · have h0 : (RunDecaySweep 86400 0.01 c2rates c2store).1.memories =
        ((c2store.memories.filterMap fun m =>
            if sweepNewScore 86400 c2rates m < 0.01 then some m.id else none).foldl
          (fun ms i => ms.filter fun m => decide (¬ m.id = i))
          ((c2store.memories.filterMap fun m =>
              if sweepNewScore 86400 c2rates m < 0.01 then none
              else some (m.id, sweepNewScore 86400 c2rates m)).foldl
            (fun ms u => ms.map fun x => applyUpd x u) c2store.memories)) := rfl
    rw [h0, upd_del_pipeline (fun m => sweepNewScore 86400 c2rates m < 0.01)
      (fun m => sweepNewScore 86400 c2rates m) c2store.memories
      (by simp [c2store, c2mem])]
    show ([c2mem].filterMap fun m =>
        if sweepNewScore 86400 c2rates m < 0.01 then none
        else some { m with decayScore := sweepNewScore 86400 c2rates m }).map
      Memory.decayScore = _
    rw [List.filterMap_cons]
    rw [if_neg hsurvive]
    simp only [List.filterMap_nil, List.map_cons, List.map_nil]
    rw [hscore]
  · rw [hspec0, harg]
    have hzero : -(0 : ℝ) * (((86400 : ℝ) - 0) / 3600 / 24) / (0.9 + 0.1) = 0 := by
      norm_num
    rw [hzero, Real.exp_zero, mul_one]
    have hlt1 : Real.exp (-0.02 : ℝ) < 1 :=
      Real.exp_lt_one_iff.mpr (by norm_num)
    intro heq
    nlinarith

/-- Witness for C2: the amended sweep theorem applied to the concrete
single-memory store; the distinct-ids hypothesis is discharged there. -/
theorem runDecaySweep_survivors_witness :
    (c2store.memories.map Memory.id).Nodup ∧
      (RunDecaySweep 86400 0.01 c2rates c2store).1.memories.Forall
        (fun m => ¬ m.decayScore < 0.01) :=
  ⟨by simp [c2store, c2mem],
    (runDecaySweep_survivors 86400 0.01 c2rates c2store (by simp [c2store, c2mem])).2.1⟩

/-- Witness for C9: two inserts into an empty association table. -/
theorem insertAssociation_twice_single_row_max_witness :
    (∀ r ∈ ([] : List Assoc), ¬(r.memoryId = 1 ∧ r.waypointId = 2)) ∧
      (InsertAssociation (InsertAssociation [] 1 2 (1/4)) 1 2 (3/4)).filter
          (fun r => decide (r.memoryId = 1 ∧ r.waypointId = 2)) =
        [{ memoryId := 1, waypointId := 2, weight := max (1/4) (3/4) }] :=
  ⟨by simp, insertAssociation_twice_single_row_max [] 1 2 (1/4) (3/4) (by simp)⟩

/-- The per-sector signal keyword lists of `heuristicClassify` (`classify.go`). -/
def sectorSignals : Sector → List String
  | Sector.episodic =>
    ["last time", "remember when", "yesterday", "came in", "visited",
     "was here", "stopped by", "showed up", "dropped by", "earlier",
     "that time", "the other day", "first time", "came back", "returned"]
  | Sector.semantic =>
    ["likes", "prefers", "is a", "works at", "always", "favorite",
     "usually", "enjoys", "listens to", "fan of", "into", "plays",
     "from", "lives in", "speaks", "knows about"]
  | Sector.procedural =>
    ["how to", "can do", "knows how", "skill", "technique",
     "method", "approach", "process", "step", "instruction"]
  | Sector.emotional =>
    ["feel", "love", "hate", "happy", "sad", "enjoy", "afraid",
     "angry", "excited", "nervous", "comfortable", "miss", "appreciate",
     "friendly", "rude", "kind", "warm", "cold", "annoyed", "grateful",
     "sweet", "nice", "mean", "fun", "boring"]
  | Sector.reflective =>
    ["pattern", "notice that", "tend to", "seem to", "often",
     "every time", "consistently", "in general", "overall",
     "reflects", "suggests", "implies", "correlat"]

/-- Byte/character-level starts-with test, the inner step of substring
search. -/
def isPrefixList : List Char → List Char → Bool
  | [], _ => true
  | _ :: _, [] => false
  | a :: as, b :: bs => (a == b) && isPrefixList as bs

/-- `strings.Contains(haystack, needle)` on character lists: the needle occurs
at some position of the haystack. -/
def containsSubList (need : List Char) : List Char → Bool
  | [] => need.isEmpty
  | c :: rest => isPrefixList need (c :: rest) || containsSubList need rest

/-- The keyword score one sector accumulates in `heuristicClassify`: 0.3 per
signal contained in the lowercased content (`scores[sector] += 0.3`,
`strings.Contains(lower, s)`). Lowercasing is `Char.toLower` per character
(identical to `strings.ToLower` on the ASCII signal alphabet). The scores are
exact multiples of 0.3 far below any float-rounding boundary, so float
comparisons between them agree with exact arithmetic and they are modelled
in ℚ. -/
def sectorScore (content : String) (s : Sector) : ℚ :=
  0.3 * (((sectorSignals s).filter fun sig =>
    containsSubList sig.toList (content.toList.map Char.toLower)).length : ℚ)

/-- `heuristicClassify` (`classify.go`): keyword scoring, then a scan for the
best sector over a Go map — whose iteration order Go leaves unspecified and
randomizes — starting from the default `(semantic, 0.0)` and replacing the
best on a strictly greater score; the confidence is the best score capped at
1.0. The map iteration order is the `order` parameter. -/
def heuristicClassify (order : List Sector) (content : String) : Sector × ℚ :=
  let best := order.foldl
    (fun (b : Sector × ℚ) s =>
      if sectorScore content s > b.2 then (s, sectorScore content s) else b)
    (Sector.semantic, 0)
  (best.1, if best.2 > 1 then 1 else best.2)

/-- The fixed sector order named by the specification. -/
def fixedSectorOrder : List Sector :=
  [Sector.episodic, Sector.semantic, Sector.procedural, Sector.emotional, Sector.reflective]

theorem sectorScore_nonneg (content : String) (s : Sector) : 0 ≤ sectorScore content s := by
  unfold sectorScore
  positivity

theorem classify_foldl_le (content : String) (order : List Sector) (b : Sector × ℚ) :
    b.2 ≤ (order.foldl
      (fun (b : Sector × ℚ) s =>
        if sectorScore content s > b.2 then (s, sectorScore content s) else b) b).2 := by
  induction order generalizing b with
  | nil => exact le_refl _
  | cons s os ih =>
    rw [List.foldl_cons]
    by_cases hgt : sectorScore content s > b.2
    · rw [if_pos hgt]
      exact le_trans (le_of_lt hgt) (ih _)
    · rw [if_neg hgt]
      exact ih b

theorem classify_foldl_mem_le (content : String) (order : List Sector) (b : Sector × ℚ) :
    ∀ s ∈ order, sectorScore content s ≤ (order.foldl
      (fun (b : Sector × ℚ) s =>
        if sectorScore content s > b.2 then (s, sectorScore content s) else b) b).2 := by
  induction order generalizing b with
  | nil =>
    intro s hs
    cases hs
  | cons t os ih =>
    intro s hs
    rw [List.foldl_cons]
    rcases List.mem_cons.mp hs with rfl | hs'
    · by_cases hgt : sectorScore content s > b.2
      · rw [if_pos hgt]
        exact classify_foldl_le content os _
      · rw [if_neg hgt]
        exact le_trans (not_lt.mp hgt) (classify_foldl_le content os b)
    · by_cases hgt : sectorScore content t > b.2
      · rw [if_pos hgt]
        exact ih _ s hs'
      · rw [if_neg hgt]
        exact ih b s hs'

theorem classify_foldl_eq_or (content : String) (order : List Sector) (b : Sector × ℚ) :
    (order.foldl
        (fun (b : Sector × ℚ) s =>
          if sectorScore content s > b.2 then (s, sectorScore content s) else b) b) = b ∨
      (order.foldl
        (fun (b : Sector × ℚ) s =>
          if sectorScore content s > b.2 then (s, sectorScore content s) else b) b).2 =
        sectorScore content ((order.foldl
          (fun (b : Sector × ℚ) s =>
            if sectorScore content s > b.2 then (s, sectorScore content s) else b) b)).1 := by
  induction order generalizing b with
  | nil => exact Or.inl rfl
  | cons t os ih =>
    rw [List.foldl_cons]
    by_cases hgt : sectorScore content t > b.2
    · rw [if_pos hgt]
      rcases ih (t, sectorScore content t) with he | hach
      · right
        rw [he]
      · right
        exact hach
    · rw [if_neg hgt]
      exact ih b

theorem classify_foldl_no_update (content : String) (order : List Sector) (b : Sector × ℚ)
    (h : ∀ s ∈ order, ¬ sectorScore content s > b.2) :
    (order.foldl
      (fun (b : Sector × ℚ) s =>
        if sectorScore content s > b.2 then (s, sectorScore content s) else b) b) = b := by
  induction order with
  | nil => rfl
  | cons t os ih =>
    rw [List.foldl_cons, if_neg (h t (List.mem_cons_self _ _))]
    exact ih fun s hs => h s (List.mem_cons_of_mem _ hs)

/-- C5 (amended): for every map iteration order that visits all five sectors,
the heuristic classifier returns a sector whose keyword score is maximal, and
when every sector scores zero it returns `semantic`; which of several tied
maximal sectors is returned depends on the map iteration order, not on the
fixed sector order. -/
theorem heuristicClassify_max_and_default (order : List Sector) (content : String)
    (hall : ∀ s : Sector, s ∈ order) :
    (∀ s : Sector, sectorScore content s ≤
        sectorScore content (heuristicClassify order content).1) ∧
      ((∀ s : Sector, sectorScore content s = 0) →
        (heuristicClassify order content).1 = Sector.semantic) := by
  constructor
  · intro s
    have h1 : sectorScore content s ≤ (order.foldl
        (fun (b : Sector × ℚ) t =>
          if sectorScore content t > b.2 then (t, sectorScore content t) else b)
        (Sector.semantic, 0)).2 :=
      classify_foldl_mem_le content order (Sector.semantic, 0) s (hall s)
    have h2 : (order.foldl
        (fun (b : Sector × ℚ) t =>
          if sectorScore content t > b.2 then (t, sectorScore content t) else b)
        (Sector.semantic, 0)).2 =
        sectorScore content ((order.foldl
          (fun (b : Sector × ℚ) t =>
            if sectorScore content t > b.2 then (t, sectorScore content t) else b)
          (Sector.semantic, 0))).1 := by
      rcases classify_foldl_eq_or content order (Sector.semantic, 0) with he | hach
      · rw [he]
        have hle := classify_foldl_mem_le content order (Sector.semantic, 0)
          Sector.semantic (hall _)
        rw [he] at hle
        exact (le_antisymm hle (sectorScore_nonneg content _)).symm
      · exact hach
    exact le_of_le_of_eq h1 h2
  · intro hz
    have hstable : (order.foldl
        (fun (b : Sector × ℚ) t =>
          if sectorScore content t > b.2 then (t, sectorScore content t) else b)
        (Sector.semantic, 0)) = (Sector.semantic, 0) := by
      apply classify_foldl_no_update
      intro s _
      rw [hz s]
      exact lt_irrefl 0
    show (order.foldl
        (fun (b : Sector × ℚ) t =>
          if sectorScore content t > b.2 then (t, sectorScore content t) else b)
        (Sector.semantic, 0)).1 = Sector.semantic
    rw [hstable]

/-- A legal map iteration order that happens to visit `emotional` before
`episodic`. -/
def c5order : List Sector :=
  [Sector.emotional, Sector.episodic, Sector.semantic, Sector.procedural, Sector.reflective]

/-- C5 counterexample: on "yesterday i feel", `episodic` and `emotional` tie at
the maximal keyword score; the scan in fixed sector order returns `episodic`,
but the same scan under another legal map iteration order returns `emotional`
— the tie-break is the unspecified map order, not the fixed sector order. -/
theorem heuristicClassify_tie_not_fixed_order_ce :
    sectorScore "yesterday i feel" Sector.episodic =
        sectorScore "yesterday i feel" Sector.emotional ∧
      (∀ s : Sector, s ∈ c5order) ∧
      (heuristicClassify fixedSectorOrder "yesterday i feel").1 = Sector.episodic ∧
      (heuristicClassify c5order "yesterday i feel").1 = Sector.emotional ∧
      Sector.emotional ≠ Sector.episodic := by
  have hepiN : ((sectorSignals Sector.episodic).filter fun sig =>
      containsSubList sig.toList ("yesterday i feel".toList.map Char.toLower)).length = 1 := by
    decide
  have hsemN : ((sectorSignals Sector.semantic).filter fun sig =>
      containsSubList sig.toList ("yesterday i feel".toList.map Char.toLower)).length = 0 := by
    decide
  have hprocN : ((sectorSignals Sector.procedural).filter fun sig =>
      containsSubList sig.toList ("yesterday i feel".toList.map Char.toLower)).length = 0 := by
    decide
  have hemoN : ((sectorSignals Sector.emotional).filter fun sig =>
      containsSubList sig.toList ("yesterday i feel".toList.map Char.toLower)).length = 1 := by
    decide
  have hreflN : ((sectorSignals Sector.reflective).filter fun sig =>
      containsSubList sig.toList ("yesterday i feel".toList.map Char.toLower)).length = 0 := by
    decide
  have hepi : sectorScore "yesterday i feel" Sector.episodic = 0.3 := by
    unfold sectorScore
    rw [hepiN]
    norm_num
  have hsem : sectorScore "yesterday i feel" Sector.semantic = 0 := by
    unfold sectorScore
    rw [hsemN]
    norm_num
  have hproc : sectorScore "yesterday i feel" Sector.procedural = 0 := by
    unfold sectorScore
    rw [hprocN]
    norm_num
  have hemo : sectorScore "yesterday i feel" Sector.emotional = 0.3 := by
    unfold sectorScore
    rw [hemoN]
    norm_num
  have hrefl : sectorScore "yesterday i feel" Sector.reflective = 0 := by
    unfold sectorScore
    rw [hreflN]
    norm_num
  refine ⟨by rw [hepi, hemo], ?_, ?_, ?_, by decide⟩
  · intro s
    cases s <;> decide
  · unfold heuristicClassify fixedSectorOrder
    simp only [List.foldl_cons, List.foldl_nil]
    norm_num [hepi, hsem, hproc, hemo, hrefl]
  · unfold heuristicClassify c5order
    simp only [List.foldl_cons, List.foldl_nil]
    norm_num [hepi, hsem, hproc, hemo, hrefl]

/-- Witness for C5: the amended theorem applied to the fixed sector order
(which visits all sectors) and the fully ambiguous text "hello world". -/
theorem heuristicClassify_max_and_default_witness :
    (∀ s : Sector, s ∈ fixedSectorOrder) ∧
      ((∀ s : Sector, sectorScore "hello world" s = 0) →
        (heuristicClassify fixedSectorOrder "hello world").1 = Sector.semantic) :=
  ⟨by intro s; cases s <;> decide,
    (heuristicClassify_max_and_default fixedSectorOrder "hello world"
      (by intro s; cases s <;> decide)).2⟩

/-- The backward scan `for cut > 0 && s[cut] != ' ' { cut-- }` of
`truncateSummary` (`engram.go`): the largest index ≤ n holding a space, or 0
when none does. -/
def findCut (s : List Char) : Nat → Nat
  | 0 => 0
  | n + 1 => if s.getD (n + 1) ' ' = ' ' then n + 1 else findCut s n

/-- `truncateSummary` (`engram.go`): the first `n` characters of `s`, backing
up to the last space before the limit (or keeping `n` when there is none),
with `"..."` appended on truncation. Go indexes bytes; contents are modelled
as character lists, identical on ASCII. -/
def truncateSummary (s : List Char) (n : Nat) : List Char :=
  if s.length ≤ n then s
  else (s.take (if findCut s n = 0 then n else findCut s n)) ++ "...".toList

/-- `buildSummary` (`engram.go`): 60% of the budget to the user message, the
remainder minus the 3-character " | " separator to the assistant message. -/
def buildSummary (userMessage assistantMessage : List Char) (maxLen : Nat) : List Char :=
  truncateSummary userMessage (maxLen * 60 / 100) ++ " | ".toList ++
    truncateSummary assistantMessage (maxLen - maxLen * 60 / 100 - 3)

theorem findCut_le (s : List Char) (n : Nat) : findCut s n ≤ n := by
  induction n with
  | zero => exact le_refl 0
  | succ k ih =>
    simp only [findCut]
    by_cases h : s.getD (k + 1) ' ' = ' '
    · rw [if_pos h]
    · rw [if_neg h]
      exact le_trans ih (Nat.le_succ k)

theorem truncateSummary_length_le (s : List Char) (n : Nat) :
    (truncateSummary s n).length ≤ n + 3 := by
  unfold truncateSummary
  by_cases h : s.length ≤ n
  · rw [if_pos h]
    omega
  · rw [if_neg h, List.length_append, List.length_take]
    have h3 : ("...".toList).length = 3 := rfl
    rw [h3]
    have hc := findCut_le s n
    by_cases h0 : findCut s n = 0
    · rw [if_pos h0]
      have hmin : min n s.length ≤ n := min_le_left _ _
      omega
    · rw [if_neg h0]
      have hmin : min (findCut s n) s.length ≤ findCut s n := min_le_left _ _
      omega

/-- C6 (amended): for every Add, the stored summary is the word-boundary
truncation of the user message to a 120-character budget, then " | ", then the
assistant message truncated to a 77-character budget (the 60/40 split of 200
minus the separator); each truncated part may carry a 3-character "..."
overshoot, so the summary is at most 206 characters long — not 200 in
general. -/
theorem buildSummary_structure_and_bound (u a : List Char) :
    buildSummary u a 200 =
        truncateSummary u 120 ++ " | ".toList ++ truncateSummary a 77 ∧
      (buildSummary u a 200).length ≤ 206 := by
  constructor
  · rfl
  · show (truncateSummary u 120 ++ " | ".toList ++ truncateSummary a 77).length ≤ 206
    rw [List.length_append, List.length_append]
    have h1 := truncateSummary_length_le u 120
    have h2 := truncateSummary_length_le a 77
    have h3 : (" | ".toList).length = 3 := rfl
    rw [h3]
    omega

/-- A 121-character spaceless user message. -/
def c6user : List Char := List.replicate 121 'a'

/-- A 78-character spaceless assistant message. -/
def c6assistant : List Char := List.replicate 78 'b'

set_option maxRecDepth 8000 in
/-- C6 counterexample: with a 121-character spaceless user message and a
78-character spaceless assistant message, the summary built under the
200-character budget is 206 characters long: both parts are cut at their
budgets (120 and 77), each gains a 3-character "...", plus the 3-character
separator. -/
theorem buildSummary_exceeds_200_ce :
    (buildSummary c6user c6assistant 200).length = 206 ∧
      ¬ (buildSummary c6user c6assistant 200).length ≤ 200 := by
  exact ⟨by decide, by decide⟩

/-- A candidate reflection from the provider (`reflect.go`): content, salience
and entity list (entity text and type). -/
structure Reflection where
  content : String
  salience : ℝ
  entities : List (String × String)

/-- The salience clamp in step 5 of `Engram.Reflect` (`reflect.go`):
`if salience <= 0 { salience = 0.7 }` then `if salience > 1.0
{ salience = 1.0 }`. -/
noncomputable def reflectClampSalience (s : ℝ) : ℝ :=
  let s1 := if s ≤ 0 then (0.7 : ℝ) else s
  if s1 > 1 then 1 else s1

/-- The `Memory` value persisted for one candidate reflection in
`Engram.Reflect`: reflective sector, clamped salience, 200-char truncated
summary. The id and timestamps are assigned by the store, and `InsertMemory`
initializes `decay_score` to the salience. -/
noncomputable def storeReflection (userId : String) (ref : Reflection) : Memory :=
  { id := 0, content := ref.content, sector := Sector.reflective,
    salience := reflectClampSalience ref.salience,
    decayScore := reflectClampSalience ref.salience,
    lastAccessedAt := 0, accessCount := 0, createdAt := 0, userId := userId,
    summary := String.mk (truncateSummary ref.content.toList 200),
    sessionId := "", parentId := 0 }

/-- C7 (amended): every candidate reflection persisted by Reflect stores
salience `if s ≤ 0 then 0.7 else if s > 1 then 1 else s` — a provided 0 (or
any non-positive value) becomes 0.7 and a value above 1 becomes 1 — so the
stored salience always lies in (0, 1]; a value strictly between 0 and 0.7 is
stored unchanged, so the range is not [0.7, 1.0]. The sector is reflective. -/
theorem storeReflection_salience_clamp (userId : String) (ref : Reflection) :
    (storeReflection userId ref).salience =
        (if ref.salience ≤ 0 then (0.7 : ℝ)
          else if ref.salience > 1 then 1 else ref.salience) ∧
      0 < (storeReflection userId ref).salience ∧
      (storeReflection userId ref).salience ≤ 1 ∧
      (storeReflection userId ref).sector = Sector.reflective := by
  have hval : (storeReflection userId ref).salience = reflectClampSalience ref.salience := rfl
  have heq : reflectClampSalience ref.salience =
      (if ref.salience ≤ 0 then (0.7 : ℝ)
        else if ref.salience > 1 then 1 else ref.salience) := by
    simp only [reflectClampSalience]
    by_cases h0 : ref.salience ≤ 0
    · rw [if_pos h0, if_pos h0, if_neg (by norm_num : ¬ (0.7 : ℝ) > 1)]
    · rw [if_neg h0, if_neg h0]
  refine ⟨hval.trans heq, ?_, ?_, rfl⟩
  · rw [hval, heq]
    by_cases h0 : ref.salience ≤ 0
    · rw [if_pos h0]
      norm_num
    · rw [if_neg h0]
      by_cases h1 : ref.salience > 1
      · rw [if_pos h1]
        norm_num
      · rw [if_neg h1]
        exact lt_of_not_le h0
  · rw [hval, heq]
    by_cases h0 : ref.salience ≤ 0
    · rw [if_pos h0]
      norm_num
    · rw [if_neg h0]
      by_cases h1 : ref.salience > 1
      · rw [if_pos h1]
      · rw [if_neg h1]
        exact not_lt.mp h1

/-- A candidate reflection with provider-supplied salience 0.3. -/
noncomputable def c7ref : Reflection := { content := "obs", salience := 0.3, entities := [] }

/-- C7 counterexample: a provider-supplied salience of 0.3 is stored
unchanged, and 0.3 does not lie in [0.7, 1.0]. -/
theorem storeReflection_salience_not_in_range_ce :
    (storeReflection "u" c7ref).salience = 0.3 ∧
      ¬ (0.7 : ℝ) ≤ (storeReflection "u" c7ref).salience := by
  have h : (storeReflection "u" c7ref).salience = 0.3 := by
    show reflectClampSalience (0.3 : ℝ) = 0.3
    simp only [reflectClampSalience]
    norm_num
  exact ⟨h, by rw [h]; norm_num⟩

/-- The reflective-with-vector rows of the user's `GetMemoriesWithVectors`
result used by `deduplicateReflections`:
`mwv.Sector == SectorReflective && mwv.Vector != nil`. -/
noncomputable def reflectiveWithVecs (existing : List (Memory × Option (List ℝ))) :
    List (Memory × List ℝ) :=
  existing.filterMap fun mwv =>
    match mwv.2 with
    | some v => if mwv.1.sector = Sector.reflective then some (mwv.1, v) else none
    | none => none

/-- `Engram.deduplicateReflections` (`reflect.go`): with no embedder keep all
candidates; with no existing reflective vectors keep all; otherwise keep a
candidate iff embedding it fails (`err != nil`, modelled as `none`) or no
existing reflective vector has cosine similarity strictly above the 0.85
duplicate threshold. -/
noncomputable def deduplicateReflections (embed : Option (String → Option (List ℝ)))
    (existing : List (Memory × Option (List ℝ))) (reflections : List Reflection) :
    List Reflection :=
  match embed with
  | none => reflections
  | some embedF =>
    if (reflectiveWithVecs existing).length = 0 then reflections
    else
      reflections.filter fun ref =>
        match embedF ref.content with
        | none => true
        | some refVec =>
          ! ((reflectiveWithVecs existing).any fun ev =>
            decide (CosineSimilarity refVec ev.2 > 0.85))

/-- C8: a candidate reflection survives deduplication iff it is a candidate
and — whenever an embedder is configured and embedding the candidate succeeds
— its cosine similarity to every existing reflective-with-vector memory of
the user is at most 0.85. Equivalently, a candidate is dropped exactly when
some existing reflective vector is strictly more similar than 0.85: a maximal
similarity of exactly 0.85 keeps the candidate, and an embedding failure
keeps it. -/
theorem deduplicateReflections_mem_iff (embed : Option (String → Option (List ℝ)))
    (existing : List (Memory × Option (List ℝ))) (reflections : List Reflection)
    (ref : Reflection) :
    ref ∈ deduplicateReflections embed existing reflections ↔
      (ref ∈ reflections ∧
        ∀ embedF, embed = some embedF →
          ∀ refVec, embedF ref.content = some refVec →
            ∀ ev ∈ reflectiveWithVecs existing, CosineSimilarity refVec ev.2 ≤ 0.85) := by
  cases embed with
  | none =>
    simp [deduplicateReflections]
  | some embedF =>
    simp only [deduplicateReflections]
    by_cases hlen : (reflectiveWithVecs existing).length = 0
    · rw [if_pos hlen]
      have hnil : reflectiveWithVecs existing = [] := List.length_eq_zero.mp hlen
      constructor
      · intro hmem
        refine ⟨hmem, ?_⟩
        intro g _ refVec _ ev hev
        rw [hnil] at hev
        cases hev
      · intro h
        exact h.1
    · rw [if_neg hlen, List.mem_filter]
      constructor
      · rintro ⟨hmem, hcond⟩
        refine ⟨hmem, ?_⟩
        intro g hg refVec hrv ev hev
        have hgf : embedF = g := Option.some_inj.mp hg
        rw [← hgf] at hrv
        rcases hres : embedF ref.content with _ | v
        · rw [hres] at hrv
          cases hrv
        · rw [hres] at hrv
          have hv : v = refVec := Option.some_inj.mp hrv
          rw [hres] at hcond
          simp only [Bool.not_eq_true', List.any_eq_false, decide_eq_true_eq] at hcond
          have := hcond ev hev
          rw [← hv]
          exact not_lt.mp this
      · rintro ⟨hmem, hall⟩
        refine ⟨hmem, ?_⟩
        rcases hres : embedF ref.content with _ | v
        · rfl
        · simp only [Bool.not_eq_true', List.any_eq_false, decide_eq_true_eq]
          intro ev hev
          exact not_lt.mpr (hall embedF rfl v hres ev hev)

/-- `SearchResult` (`types.go`): a scored memory returned from retrieval. -/
structure SearchResult where
  memory : Memory
  compositeScore : ℝ
  similarity : ℝ

/-- `scored` (`engram.go`): a memory-with-vector paired with its computed
similarity to the query. -/
structure Scored where
  memory : Memory
  vector : List ℝ
  similarity : ℝ

/-- `Store.GetMemoriesWithVectors`: the user's memories, each with its vector
when one exists (`LEFT JOIN vectors ON v.memory_id = m.id`; vectors are
one-to-one). The `ORDER BY created_at DESC` ordering is abstracted as the
stored row order. -/
noncomputable def GetMemoriesWithVectors (st : StoreState) (userId : String) :
    List (Memory × Option (List ℝ)) :=
  (st.memories.filter fun m => decide (m.userId = userId)).map fun m =>
    (m, (st.vectors.find? fun v => decide (v.memoryId = m.id)).map VectorRow.vec)

/-- `ExpandViaWaypoints` (entity-graph file): one-hop expansion. A memory id
receives constant link weight 0.8 exactly when some memory of the user with
that id shares a waypoint with a seed memory and is not itself a seed
(Go builds this as a map whose lookup yields 0 for absent keys). -/
noncomputable def ExpandViaWaypoints (st : StoreState) (seeds : List Memory)
    (userId : String) : Int → ℝ :=
  fun memId =>
    if (∃ sm ∈ seeds, ∃ a1 ∈ st.associations, ∃ a2 ∈ st.associations, ∃ lm ∈ st.memories,
        a1.memoryId = sm.id ∧ a2.waypointId = a1.waypointId ∧ a2.memoryId = lm.id ∧
        lm.userId = userId ∧ lm.id = memId ∧ ¬ ∃ sm' ∈ seeds, sm'.id = lm.id)
    then 0.8 else 0

/-- The `sectorWeight` resolution in the search paths: a zero weight (also the
Go map's missing-key value) is treated as 1.0. -/
noncomputable def resolveSectorWeight (weights : Sector → ℝ) (s : Sector) : ℝ :=
  if weights s = 0 then 1 else weights s

/-- Step 3 of the search paths: drop candidates without a vector and score
each remaining one by cosine similarity to the query vector. -/
noncomputable def searchScoredOf (queryVec : List ℝ)
    (cs : List (Memory × Option (List ℝ))) : List Scored :=
  cs.filterMap fun c =>
    match c.2 with
    | none => none
    | some v => some ⟨c.1, v, CosineSimilarity queryVec v⟩

/-- The similarity-descending `sort.Slice` of candidates. -/
noncomputable def sortBySimilarity (l : List Scored) : List Scored :=
  l.mergeSort fun a b => decide (b.similarity ≤ a.similarity)

/-- The top-20-by-similarity seeds taken for waypoint expansion. -/
noncomputable def seedsOf (scoredCandidates : List Scored) : List Memory :=
  (scoredCandidates.take 20).map Scored.memory

/-- Step 5 of the search paths — also used verbatim by the high-salience
injection: the composite scoring of one candidate. The salience argument
passed to `CompositeScore` is the memory's `DecayScore` field. -/
noncomputable def mkSearchResult (now : ℝ) (sw : ScoringWeights) (weights : Sector → ℝ)
    (linkWeights : Int → ℝ) (sc : Scored) : SearchResult :=
  { memory := sc.memory
    compositeScore := CompositeScore sc.similarity sc.memory.decayScore
      (DaysSince now sc.memory.lastAccessedAt) (linkWeights sc.memory.id)
      (resolveSectorWeight weights sc.memory.sector) sw
    similarity := sc.similarity }

/-- The injection loop of `guaranteeHighSalience`: up to `maxBoosts = 2`
candidates; while the result list is full (`len(results) >= limit`) each
injection replaces the last element, otherwise it appends. -/
noncomputable def injectLoop (limit : Int) : List SearchResult → Nat → List SearchResult →
    List SearchResult
  | [], _, results => results
  | c :: cs, injected, results =>
    if injected ≥ 2 then results
    else if (results.length : Int) ≥ limit then
      injectLoop limit cs (injected + 1) (results.dropLast ++ [c])
    else injectLoop limit cs (injected + 1) (results ++ [c])

/-- `Engram.guaranteeHighSalience` (`engram.go`): collect scored candidates
with salience ≥ 0.6 that are not already in the results, score them with the
same composite expression, sort them salience-descending, and inject up to
2. -/
noncomputable def guaranteeHighSalience (now : ℝ) (sw : ScoringWeights)
    (weights : Sector → ℝ) (linkWeights : Int → ℝ) (limit : Int)
    (results : List SearchResult) (allScored : List Scored) : List SearchResult :=
  let candidates := (allScored.filter fun sc =>
    decide (¬ (∃ r ∈ results, r.memory.id = sc.memory.id) ∧
      ¬ sc.memory.salience < 0.6)).map (mkSearchResult now sw weights linkWeights)
  if candidates.length = 0 then results
  else
    injectLoop limit
      (candidates.mergeSort fun a b => decide (b.memory.salience ≤ a.memory.salience))
      0 results

/-- The shared tail of both search paths: composite-score every candidate,
rank descending, truncate to `limit`, and apply the high-salience
guarantee. -/
noncomputable def rankTruncateInject (now : ℝ) (sw : ScoringWeights)
    (weights : Sector → ℝ) (linkWeights : Int → ℝ) (limit : Int)
    (scoredCandidates : List Scored) : List SearchResult :=
  let results := scoredCandidates.map (mkSearchResult now sw weights linkWeights)
  let ranked := results.mergeSort fun a b => decide (b.compositeScore ≤ a.compositeScore)
  let truncated := if (ranked.length : Int) > limit then ranked.take limit.toNat else ranked
  guaranteeHighSalience now sw weights linkWeights limit truncated scoredCandidates

/-- `Engram.Search` (`engram.go`): reject an empty user id, default the limit
to 5 when non-positive, load and score the user's candidates, rank by
composite score, truncate, and apply the high-salience guarantee. The query
embedding is given as `queryVec` (the embedder is external), and the final
salience reinforcement writes to the store without changing the returned
list. -/
noncomputable def Search (st : StoreState) (queryVec : List ℝ) (userId : String)
    (limit : Int) (weights : Sector → ℝ) (sw : ScoringWeights) (now : ℝ) :
    List SearchResult :=
  if userId = "" then []
  else
    let limit := if limit ≤ 0 then 5 else limit
    if (GetMemoriesWithVectors st userId).length = 0 then []
    else
      let scoredCandidates :=
        sortBySimilarity (searchScoredOf queryVec (GetMemoriesWithVectors st userId))
      rankTruncateInject now sw weights
        (ExpandViaWaypoints st (seedsOf scoredCandidates) userId) limit scoredCandidates

/-- The temporal/session/sector candidate filters of
`Engram.SearchWithOptions` (`engram.go`). -/
noncomputable def filterOptions (after before : Option ℝ) (sessionId : String)
    (sectors : List Sector) (cs : List (Memory × Option (List ℝ))) :
    List (Memory × Option (List ℝ)) :=
  cs.filter fun c =>
    decide ((∀ t, after = some t → ¬ c.1.createdAt < t) ∧
      (∀ t, before = some t → ¬ t < c.1.createdAt) ∧
      (sessionId ≠ "" → c.1.sessionId = sessionId) ∧
      (sectors ≠ [] → c.1.sector ∈ sectors))

/-- `Engram.SearchWithOptions` (`engram.go`): like `Search` with the
temporal/session/sector filters applied to the candidates before scoring. -/
noncomputable def SearchWithOptions (st : StoreState) (queryVec : List ℝ)
    (userId : String) (limit : Int) (weights : Sector → ℝ) (after before : Option ℝ)
    (sessionId : String) (sectors : List Sector) (sw : ScoringWeights) (now : ℝ) :
    List SearchResult :=
  if userId = "" then []
  else
    let limit := if limit ≤ 0 then 5 else limit
    if (filterOptions after before sessionId sectors
        (GetMemoriesWithVectors st userId)).length = 0 then []
    else
      let scoredCandidates := sortBySimilarity (searchScoredOf queryVec
        (filterOptions after before sessionId sectors (GetMemoriesWithVectors st userId)))
      rankTruncateInject now sw weights
        (ExpandViaWaypoints st (seedsOf scoredCandidates) userId) limit scoredCandidates

theorem injectLoop_length_le (limit : Int) (cs : List SearchResult) :
    ∀ (injected : Nat) (results : List SearchResult), 1 ≤ limit →
      (results.length : Int) ≤ limit →
      ((injectLoop limit cs injected results).length : Int) ≤ limit := by
  induction cs with
  | nil =>
    intro injected results _ hlen
    simpa only [injectLoop] using hlen
  | cons c cs ih =>
    intro injected results hlim hlen
    simp only [injectLoop]
    by_cases h2 : injected ≥ 2
    · rw [if_pos h2]
      exact hlen
    · rw [if_neg h2]
      by_cases hfull : (results.length : Int) ≥ limit
      · rw [if_pos hfull]
        apply ih _ _ hlim
        rw [List.length_append, List.length_dropLast, List.length_singleton]
        have hpos : 1 ≤ results.length := by
          have : (1 : Int) ≤ (results.length : Int) := le_trans hlim hfull
          exact_mod_cast this
        have hln : results.length - 1 + 1 = results.length := by omega
        rw [hln]
        exact hlen
      · rw [if_neg hfull]
        apply ih _ _ hlim
        rw [List.length_append, List.length_singleton]
        push_cast
        omega

theorem guaranteeHighSalience_length_le (now : ℝ) (sw : ScoringWeights)
    (weights : Sector → ℝ) (linkWeights : Int → ℝ) (limit : Int)
    (results : List SearchResult) (allScored : List Scored)
    (hlim : 1 ≤ limit) (hlen : (results.length : Int) ≤ limit) :
    ((guaranteeHighSalience now sw weights linkWeights limit results allScored).length :
      Int) ≤ limit := by
  simp only [guaranteeHighSalience]
  by_cases hc : ((allScored.filter fun sc =>
      decide (¬ (∃ r ∈ results, r.memory.id = sc.memory.id) ∧
        ¬ sc.memory.salience < 0.6)).map (mkSearchResult now sw weights linkWeights)).length
      = 0
  · rw [if_pos hc]
    exact hlen
  · rw [if_neg hc]
    exact injectLoop_length_le limit _ 0 results hlim hlen

theorem rankTruncateInject_length_le (now : ℝ) (sw : ScoringWeights)
    (weights : Sector → ℝ) (linkWeights : Int → ℝ) (limit : Int)
    (scoredCandidates : List Scored) (hlim : 1 ≤ limit) :
    ((rankTruncateInject now sw weights linkWeights limit scoredCandidates).length : Int)
      ≤ limit := by
  simp only [rankTruncateInject]
  apply guaranteeHighSalience_length_le _ _ _ _ _ _ _ hlim
  by_cases hgt : ((((scoredCandidates.map
      (mkSearchResult now sw weights linkWeights)).mergeSort fun a b =>
        decide (b.compositeScore ≤ a.compositeScore)).length : Int)) > limit
  · rw [if_pos hgt]
    rw [List.length_take]
    have h1 : min limit.toNat (((scoredCandidates.map
        (mkSearchResult now sw weights linkWeights)).mergeSort fun a b =>
          decide (b.compositeScore ≤ a.compositeScore)).length) ≤ limit.toNat :=
      min_le_left _ _
    have h2 : (limit.toNat : Int) = limit := Int.toNat_of_nonneg (by omega)
    omega
  · rw [if_neg hgt]
    omega

/-- C3: for every Search or SearchWithOptions call with a positive limit, the
returned result list has length at most `limit` — after composite
ranking/truncation and after the high-salience injection step, which injects
at most 2 candidates, replacing the last element when the list is already
full and appending otherwise. -/
theorem search_results_length_le_limit (st : StoreState) (queryVec : List ℝ)
    (userId : String) (limit : Int) (weights : Sector → ℝ) (sw : ScoringWeights)
    (now : ℝ) (after before : Option ℝ) (sessionId : String) (sectors : List Sector)
    (hlim : 0 < limit) :
    ((Search st queryVec userId limit weights sw now).length : Int) ≤ limit ∧
      ((SearchWithOptions st queryVec userId limit weights after before sessionId sectors
          sw now).length : Int) ≤ limit := by
  have hlim1 : (1 : Int) ≤ limit := hlim
  have hdef : (if limit ≤ 0 then (5 : Int) else limit) = limit := if_neg (by omega)
  constructor
  · simp only [Search, hdef]
    by_cases hu : userId = ""
    · rw [if_pos hu]
      simp only [List.length_nil, Nat.cast_zero]
      omega
    · rw [if_neg hu]
      by_cases hc : (GetMemoriesWithVectors st userId).length = 0
      · rw [if_pos hc]
        simp only [List.length_nil, Nat.cast_zero]
        omega
      · rw [if_neg hc]
        exact rankTruncateInject_length_le _ _ _ _ _ _ hlim1
  · simp only [SearchWithOptions, hdef]
    by_cases hu : userId = ""
    · rw [if_pos hu]
      simp only [List.length_nil, Nat.cast_zero]
      omega
    · rw [if_neg hu]
      by_cases hc : (filterOptions after before sessionId sectors
          (GetMemoriesWithVectors st userId)).length = 0
      · rw [if_pos hc]
        simp only [List.length_nil, Nat.cast_zero]
        omega
      · rw [if_neg hc]
        exact rankTruncateInject_length_le _ _ _ _ _ _ hlim1

/-- Witness for C3: both search paths on an empty store with limit 3. -/
theorem search_results_length_le_limit_witness :
    (0 : Int) < 3 ∧
      ((Search ⟨[], [], [], []⟩ [] "u" 3 (fun _ => 1) DefaultScoringWeights 0).length :
        Int) ≤ 3 :=
  ⟨by decide,
    (search_results_length_le_limit ⟨[], [], [], []⟩ [] "u" 3 (fun _ => 1)
      DefaultScoringWeights 0 none none "" [] (by decide)).1⟩

theorem injectLoop_mem (limit : Int) (cs : List SearchResult) :
    ∀ (injected : Nat) (results : List SearchResult) (r : SearchResult),
      r ∈ injectLoop limit cs injected results → r ∈ results ∨ r ∈ cs := by
  induction cs with
  | nil =>
    intro injected results r h
    left
    simpa only [injectLoop] using h
  | cons c cs ih =>
    intro injected results r h
    simp only [injectLoop] at h
    by_cases h2 : injected ≥ 2
    · rw [if_pos h2] at h
      left
      exact h
    · rw [if_neg h2] at h
      by_cases hfull : (results.length : Int) ≥ limit
      · rw [if_pos hfull] at h
        rcases ih _ _ r h with hin | hin
        · rcases List.mem_append.mp hin with hin' | hin'
          · left
            exact (List.dropLast_sublist results).mem hin'
          · right
            rcases List.mem_singleton.mp hin' with rfl
            exact List.mem_cons_self _ _
        · right
          exact List.mem_cons_of_mem _ hin
      · rw [if_neg hfull] at h
        rcases ih _ _ r h with hin | hin
        · rcases List.mem_append.mp hin with hin' | hin'
          · left
            exact hin'
          · right
            rcases List.mem_singleton.mp hin' with rfl
            exact List.mem_cons_self _ _
        · right
          exact List.mem_cons_of_mem _ hin

theorem guaranteeHighSalience_mem (now : ℝ) (sw : ScoringWeights)
    (weights : Sector → ℝ) (linkWeights : Int → ℝ) (limit : Int)
    (results : List SearchResult) (allScored : List Scored) (r : SearchResult)
    (h : r ∈ guaranteeHighSalience now sw weights linkWeights limit results allScored) :
    r ∈ results ∨ ∃ sc ∈ allScored, r = mkSearchResult now sw weights linkWeights sc := by
  simp only [guaranteeHighSalience] at h
  by_cases hc : ((allScored.filter fun sc =>
      decide (¬ (∃ r ∈ results, r.memory.id = sc.memory.id) ∧
        ¬ sc.memory.salience < 0.6)).map (mkSearchResult now sw weights linkWeights)).length
      = 0
  · rw [if_pos hc] at h
    left
    exact h
  · rw [if_neg hc] at h
    rcases injectLoop_mem _ _ _ _ r h with hin | hin
    · left
      exact hin
    · right
      have hin' := List.mem_mergeSort.mp hin
      rcases List.mem_map.mp hin' with ⟨sc, hsc, rfl⟩
      exact ⟨sc, (List.mem_filter.mp hsc).1, rfl⟩

theorem rankTruncateInject_mem (now : ℝ) (sw : ScoringWeights) (weights : Sector → ℝ)
    (linkWeights : Int → ℝ) (limit : Int) (scoredCandidates : List Scored)
    (r : SearchResult)
    (h : r ∈ rankTruncateInject now sw weights linkWeights limit scoredCandidates) :
    ∃ sc ∈ scoredCandidates, r = mkSearchResult now sw weights linkWeights sc := by
  simp only [rankTruncateInject] at h
  rcases guaranteeHighSalience_mem _ _ _ _ _ _ _ r h with hin | hex
  · have hr : r ∈ (scoredCandidates.map
        (mkSearchResult now sw weights linkWeights)).mergeSort fun a b =>
          decide (b.compositeScore ≤ a.compositeScore) := by
      by_cases hgt : ((((scoredCandidates.map
          (mkSearchResult now sw weights linkWeights)).mergeSort fun a b =>
            decide (b.compositeScore ≤ a.compositeScore)).length : Int)) > limit
      · rw [if_pos hgt] at hin
        exact List.mem_of_mem_take hin
      · rw [if_neg hgt] at hin
        exact hin
    have hr' := List.mem_mergeSort.mp hr
    rcases List.mem_map.mp hr' with ⟨sc, hsc, rfl⟩
    exact ⟨sc, hsc, rfl⟩
  · exact hex

/-- C10: every result of Search and of SearchWithOptions — the ranked results
and the high-salience injections alike — carries a composite score computed by
`CompositeScore` with the memory's `decay_score` field in the salience slot
(together with its cosine similarity, recency days, one-hop link weight, and
resolved sector weight); the memory's `salience` field enters the pipeline
only through the ≥ 0.6 injection threshold and the injection candidates'
salience-descending sort inside `guaranteeHighSalience`. -/
theorem search_salience_slot_is_decay_score (st : StoreState) (queryVec : List ℝ)
    (userId : String) (limit : Int) (weights : Sector → ℝ) (sw : ScoringWeights)
    (now : ℝ) (after before : Option ℝ) (sessionId : String) (sectors : List Sector) :
    (Search st queryVec userId limit weights sw now).Forall (fun r =>
        ∃ sc ∈ sortBySimilarity (searchScoredOf queryVec (GetMemoriesWithVectors st userId)),
          r.memory = sc.memory ∧ r.similarity = sc.similarity ∧
            r.compositeScore = CompositeScore sc.similarity sc.memory.decayScore
              (DaysSince now sc.memory.lastAccessedAt)
              (ExpandViaWaypoints st (seedsOf (sortBySimilarity (searchScoredOf queryVec
                (GetMemoriesWithVectors st userId)))) userId sc.memory.id)
              (resolveSectorWeight weights sc.memory.sector) sw) ∧
      (SearchWithOptions st queryVec userId limit weights after before sessionId sectors
          sw now).Forall (fun r =>
        ∃ sc ∈ sortBySimilarity (searchScoredOf queryVec (filterOptions after before
            sessionId sectors (GetMemoriesWithVectors st userId))),
          r.memory = sc.memory ∧ r.similarity = sc.similarity ∧
            r.compositeScore = CompositeScore sc.similarity sc.memory.decayScore
              (DaysSince now sc.memory.lastAccessedAt)
              (ExpandViaWaypoints st (seedsOf (sortBySimilarity (searchScoredOf queryVec
                (filterOptions after before sessionId sectors
                  (GetMemoriesWithVectors st userId))))) userId sc.memory.id)
              (resolveSectorWeight weights sc.memory.sector) sw) := by
  constructor
  · rw [List.forall_iff_forall_mem]
    intro r hr
    simp only [Search] at hr
    by_cases hu : userId = ""
    · rw [if_pos hu] at hr
      cases hr
    · rw [if_neg hu] at hr
      by_cases hc : (GetMemoriesWithVectors st userId).length = 0
      · rw [if_pos hc] at hr
        cases hr
      · rw [if_neg hc] at hr
        rcases rankTruncateInject_mem _ _ _ _ _ _ r hr with ⟨sc, hsc, rfl⟩
        exact ⟨sc, hsc, rfl, rfl, rfl⟩
  · rw [List.forall_iff_forall_mem]
    intro r hr
    simp only [SearchWithOptions] at hr
    by_cases hu : userId = ""
    · rw [if_pos hu] at hr
      cases hr
    · rw [if_neg hu] at hr
      by_cases hc : (filterOptions after before sessionId sectors
          (GetMemoriesWithVectors st userId)).length = 0
      · rw [if_pos hc] at hr
        cases hr
      · rw [if_neg hc] at hr
        rcases rankTruncateInject_mem _ _ _ _ _ _ r hr with ⟨sc, hsc, rfl⟩
        exact ⟨sc, hsc, rfl, rfl, rfl⟩

end Engram
